import Mathlib

/-!
Shallow embedding of `avalanche-types/src/ids.rs`: the fixed-length
identifier types `Id` (32 bytes), `ShortId` (20 bytes) and `NodeId`
(20 bytes), their CB58 text form, byte-lexicographic ordering, hashing,
length-first collection ordering, tag-derived sub-identifiers, and the
optional/required serde binding helpers.

Modelling conventions: Rust `u8` values are `Nat` with explicit `< 256`
bounds where they matter; Rust strings are lists of UTF-8 bytes; a fallible
Rust computation returns a `PResult`: `ok` for a normal return, `err` for a
recoverable `io::Error`, and `fatal` for a process-fatal precondition
violation (a failed `assert!` or an out-of-bounds string slice).  The
external SHA-256 primitive (`utils::hash`) is passed as a function
parameter; the base58-with-checksum codec (`crate::formatting`) and the
byte packer (`crate::packer`), which live outside this module, are
modelled from the specification (see the doc comments on the
corresponding definitions).
-/

namespace AvaIds

/-- Outcome of a Rust computation: a value, a recoverable error, or a
process-fatal precondition violation (failed `assert!` / out-of-bounds
slice indexing). -/
inductive PResult (α : Type) where
  | ok : α → PResult α
  | err : String → PResult α
  | fatal : PResult α
  deriving DecidableEq

/-- Rust's integer `Ord::cmp` (used on `u8` bytes and on `usize` lengths). -/
def natCmp (a b : Nat) : Ordering :=
  if a < b then .lt else if a = b then .eq else .gt

/-- Rust's lexicographic `Ord::cmp` on slices / `Vec`s, parameterised by the
element comparison; a strict prefix is less. -/
def listCmp (f : α → α → Ordering) : List α → List α → Ordering
  | [], [] => .eq
  | [], _ :: _ => .lt
  | _ :: _, [] => .gt
  | a :: as, b :: bs => (f a b).then (listCmp f as bs)

theorem natCmp_eq_lt {a b : Nat} : natCmp a b = .lt ↔ a < b := by
  unfold natCmp
  split_ifs with h1 h2
  · simp [h1]
  · simp
    omega
  · simp
    omega

theorem natCmp_eq_eq {a b : Nat} : natCmp a b = .eq ↔ a = b := by
  unfold natCmp
  split_ifs with h1 h2
  · simp
    omega
  · simp [h2]
  · simp
    omega

theorem natCmp_eq_gt {a b : Nat} : natCmp a b = .gt ↔ b < a := by
  unfold natCmp
  split_ifs with h1 h2
  · simp
    omega
  · simp
    omega
  · simp
    omega

theorem ordering_then_eq_eq {o p : Ordering} :
    o.then p = .eq ↔ o = .eq ∧ p = .eq := by
  cases o <;> simp [Ordering.then]

theorem listCmp_eq_eq_iff_forall₂ (f : α → α → Ordering) :
    ∀ a b : List α, listCmp f a b = .eq ↔ List.Forall₂ (fun x y => f x y = .eq) a b
  | [], [] => by simp [listCmp]
  | [], _ :: _ => by simp [listCmp]
  | _ :: _, [] => by simp [listCmp]
  | a :: as, b :: bs => by
    simp [listCmp, ordering_then_eq_eq, listCmp_eq_eq_iff_forall₂ f as bs]

theorem listCmp_natCmp_eq_eq {a b : List Nat} :
    listCmp natCmp a b = .eq ↔ a = b := by
  rw [listCmp_eq_eq_iff_forall₂]
  have hrel : (fun x y : Nat => natCmp x y = Ordering.eq) = (fun x y : Nat => x = y) := by
    funext x y
    exact propext natCmp_eq_eq
  rw [hrel, List.forall₂_eq_eq_eq]

/-- Value of a little-endian digit string in base `B`. -/
def natOfLE (B : Nat) : List Nat → Nat
  | [] => 0
  | b :: bs => b + B * natOfLE B bs

/-- Fuel-driven digit extraction; for any fuel of at least `v` steps it
computes the little-endian base-`B` digits of `v`. -/
def digitsLEAux (B : Nat) : Nat → Nat → List Nat
  | _, 0 => []
  | v, fuel + 1 =>
    if v = 0 ∨ B < 2 then [] else v % B :: digitsLEAux B (v / B) fuel

/-- Little-endian base-`B` digits of `v` (empty for `0`, no leading-zero
digit at the most-significant end). -/
def digitsLE (B v : Nat) : List Nat := digitsLEAux B v v

theorem digitsLEAux_congr {B : Nat} :
    ∀ {fuel₁ fuel₂ v : Nat}, v ≤ fuel₁ → v ≤ fuel₂ →
      digitsLEAux B v fuel₁ = digitsLEAux B v fuel₂ := by
  intro fuel₁
  induction fuel₁ with
  | zero =>
    intro fuel₂ v h1 _
    have hv : v = 0 := by omega
    subst hv
    cases fuel₂ with
    | zero => rfl
    | succ g => simp [digitsLEAux]
  | succ f ih =>
    intro fuel₂ v h1 h2
    cases fuel₂ with
    | zero =>
      have hv : v = 0 := by omega
      subst hv
      simp [digitsLEAux]
    | succ g =>
      show (if v = 0 ∨ B < 2 then [] else v % B :: digitsLEAux B (v / B) f) =
        (if v = 0 ∨ B < 2 then [] else v % B :: digitsLEAux B (v / B) g)
      split
      · rfl
      · rename_i hcond
        push_neg at hcond
        have hdiv : v / B < v := Nat.div_lt_self (Nat.pos_of_ne_zero hcond.1) (by omega)
        have h3 : v / B ≤ f := by omega
        have h4 : v / B ≤ g := by omega
        rw [ih h3 h4]

theorem digitsLE_zero (B : Nat) : digitsLE B 0 = [] := rfl

theorem digitsLE_pos {B v : Nat} (hB : 2 ≤ B) (hv : v ≠ 0) :
    digitsLE B v = v % B :: digitsLE B (v / B) := by
  cases v with
  | zero => exact absurd rfl hv
  | succ k =>
    show (if k + 1 = 0 ∨ B < 2 then []
      else (k + 1) % B :: digitsLEAux B ((k + 1) / B) k) = _
    rw [if_neg (by omega)]
    have hdiv : (k + 1) / B ≤ k := by
      have h : (k + 1) / B < k + 1 := Nat.div_lt_self (by omega) (by omega)
      omega
    rw [digitsLEAux_congr hdiv (Nat.le_refl _)]
    rfl

theorem natOfLE_digitsLE {B : Nat} (hB : 2 ≤ B) :
    ∀ v, natOfLE B (digitsLE B v) = v := by
  intro v
  induction v using Nat.strong_induction_on with
  | _ v ih =>
    by_cases hv : v = 0
    · subst hv; simp [digitsLE_zero, natOfLE]
    · rw [digitsLE_pos hB hv, natOfLE,
        ih (v / B) (Nat.div_lt_self (Nat.pos_of_ne_zero hv) (by omega))]
      exact Nat.mod_add_div v B

theorem natOfLE_pos {B : Nat} (hB : 2 ≤ B) :
    ∀ {l : List Nat}, l ≠ [] → l.getLast? ≠ some 0 → 0 < natOfLE B l
  | [], h, _ => absurd rfl h
  | [b], _, h => by
    simp [List.getLast?] at h
    simp [natOfLE]
    omega
  | b :: c :: bs, _, h => by
    have htail : (c :: bs).getLast? ≠ some 0 := by
      rwa [List.getLast?_cons_cons] at h
    have hpos := natOfLE_pos (B := B) hB (l := c :: bs) (by simp) htail
    have h2 : 1 ≤ B * natOfLE B (c :: bs) := by
      calc 1 = 1 * 1 := rfl
        _ ≤ B * natOfLE B (c :: bs) := Nat.mul_le_mul (by omega) hpos
    simp only [natOfLE] at h2 ⊢
    omega

theorem digitsLE_natOfLE {B : Nat} (hB : 2 ≤ B) :
    ∀ l : List Nat, (∀ x ∈ l, x < B) → l.getLast? ≠ some 0 →
      digitsLE B (natOfLE B l) = l
  | [], _, _ => by simp [natOfLE, digitsLE_zero]
  | [b], hlt, hlast => by
    have hb : b < B := hlt b (by simp)
    have hb0 : b ≠ 0 := by simpa [List.getLast?] using hlast
    rw [natOfLE, natOfLE]
    simp only [Nat.mul_zero, Nat.add_zero]
    rw [digitsLE_pos hB hb0, Nat.mod_eq_of_lt hb, Nat.div_eq_of_lt hb,
      digitsLE_zero]
  | b :: c :: bs, hlt, hlast => by
    have hb : b < B := hlt b (by simp)
    have htail : (c :: bs).getLast? ≠ some 0 := by
      rwa [List.getLast?_cons_cons] at hlast
    have hpos : 0 < natOfLE B (c :: bs) := natOfLE_pos hB (by simp) htail
    have ih := digitsLE_natOfLE hB (c :: bs) (fun x hx => hlt x (by simp [hx])) htail
    rw [natOfLE]
    have hne : b + B * natOfLE B (c :: bs) ≠ 0 := by positivity
    rw [digitsLE_pos hB hne]
    have hmod : (b + B * natOfLE B (c :: bs)) % B = b := by
      rw [Nat.add_mul_mod_self_left, Nat.mod_eq_of_lt hb]
    have hdiv : (b + B * natOfLE B (c :: bs)) / B = natOfLE B (c :: bs) := by
      rw [Nat.add_mul_div_left _ _ (by omega : 0 < B), Nat.div_eq_of_lt hb]
      omega
    rw [hmod, hdiv, ih]

theorem digitsLE_mem_lt {B : Nat} (hB : 2 ≤ B) :
    ∀ v, ∀ x ∈ digitsLE B v, x < B := by
  intro v
  induction v using Nat.strong_induction_on with
  | _ v ih =>
    by_cases hv : v = 0
    · subst hv; simp [digitsLE_zero]
    · rw [digitsLE_pos hB hv]
      intro x hx
      rcases List.mem_cons.mp hx with h | h
      · subst h; exact Nat.mod_lt _ (by omega)
      · exact ih (v / B) (Nat.div_lt_self (Nat.pos_of_ne_zero hv) (by omega)) x h

theorem digitsLE_getLast_ne_zero {B : Nat} (hB : 2 ≤ B) :
    ∀ v, (digitsLE B v).getLast? ≠ some 0 := by
  intro v
  induction v using Nat.strong_induction_on with
  | _ v ih =>
    by_cases hv : v = 0
    · subst hv; simp [digitsLE_zero]
    · rw [digitsLE_pos hB hv]
      by_cases hdiv : v / B = 0
      · have hvB : v < B := by
          by_contra hge
          push_neg at hge
          have := Nat.div_pos hge (by omega)
          omega
        rw [hdiv, digitsLE_zero, Nat.mod_eq_of_lt hvB]
        simp [List.getLast?]
        exact hv
      · have htail := ih (v / B) (Nat.div_lt_self (Nat.pos_of_ne_zero hv) (by omega))
        have hne : digitsLE B (v / B) ≠ [] := by
          rw [digitsLE_pos hB hdiv]
          simp
        rcases List.exists_cons_of_ne_nil hne with ⟨c, cs, hcs⟩
        rw [hcs]
        rw [List.getLast?_cons_cons]
        rw [hcs] at htail
        exact htail

theorem digitsLE_length_mono_val {B : Nat} (hB : 2 ≤ B) :
    ∀ a b : Nat, a ≤ b → (digitsLE B a).length ≤ (digitsLE B b).length := by
  intro a
  induction a using Nat.strong_induction_on with
  | _ a ih =>
    intro b hab
    by_cases ha : a = 0
    · subst ha; simp [digitsLE_zero]
    · have hb : b ≠ 0 := by omega
      rw [digitsLE_pos hB ha, digitsLE_pos hB hb]
      simp only [List.length_cons, Nat.add_le_add_iff_right]
      exact ih (a / B) (Nat.div_lt_self (Nat.pos_of_ne_zero ha) (by omega))
        (b / B) (Nat.div_le_div_right hab)

theorem digitsLE_length_base_mono {B C : Nat} (hB : 2 ≤ B) (hBC : B ≤ C) :
    ∀ v, (digitsLE C v).length ≤ (digitsLE B v).length := by
  intro v
  induction v using Nat.strong_induction_on with
  | _ v ih =>
    by_cases hv : v = 0
    · subst hv; simp [digitsLE_zero]
    · rw [digitsLE_pos (by omega) hv, digitsLE_pos hB hv]
      simp only [List.length_cons, Nat.add_le_add_iff_right]
      calc (digitsLE C (v / C)).length
          ≤ (digitsLE B (v / C)).length :=
            ih (v / C) (Nat.div_lt_self (Nat.pos_of_ne_zero hv) (by omega))
        _ ≤ (digitsLE B (v / B)).length :=
            digitsLE_length_mono_val hB _ _ (Nat.div_le_div_left hBC (by omega))

theorem natOfLE_replicate_zero (B : Nat) :
    ∀ z, natOfLE B (List.replicate z 0) = 0
  | 0 => rfl
  | z + 1 => by simp [natOfLE, natOfLE_replicate_zero B z]

theorem natOfLE_append_zeros (B : Nat) :
    ∀ (l : List Nat) (z : Nat), natOfLE B (l ++ List.replicate z 0) = natOfLE B l := by
  intro l
  induction l with
  | nil =>
    intro z
    simp [natOfLE, natOfLE_replicate_zero B z]
  | cons b bs ih =>
    intro z
    simp [natOfLE, ih]

/-- Number of leading occurrences of `c` at the front of a list. -/
def leadCount (c : Nat) : List Nat → Nat
  | [] => 0
  | b :: bs => if b = c then leadCount c bs + 1 else 0

theorem leadCount_le_length (c : Nat) : ∀ l : List Nat, leadCount c l ≤ l.length
  | [] => Nat.le_refl _
  | b :: bs => by
    simp only [leadCount, List.length_cons]
    split
    · exact Nat.succ_le_succ (leadCount_le_length c bs)
    · exact Nat.zero_le _

theorem take_leadCount (c : Nat) :
    ∀ l : List Nat, l.take (leadCount c l) = List.replicate (leadCount c l) c
  | [] => by simp [leadCount]
  | b :: bs => by
    simp only [leadCount]
    split
    · subst b
      simp [List.take, List.replicate, take_leadCount c bs]
    · simp

theorem head_drop_leadCount (c : Nat) :
    ∀ l : List Nat, (l.drop (leadCount c l)).head? ≠ some c
  | [] => by simp [leadCount]
  | b :: bs => by
    simp only [leadCount]
    split
    · simpa using head_drop_leadCount c bs
    · simp only [List.drop_zero, List.head?_cons]
      intro hc
      simp at hc
      omega

theorem leadCount_replicate_append (c : Nat) (rest : List Nat) :
    ∀ z, leadCount c (List.replicate z c ++ rest) = z + leadCount c rest
  | 0 => by simp
  | z + 1 => by
    simp [List.replicate_succ, leadCount, leadCount_replicate_append c rest z]
    omega

theorem leadCount_eq_zero_of_head (c : Nat) (l : List Nat) (h : l.head? ≠ some c) :
    leadCount c l = 0 := by
  cases l with
  | nil => rfl
  | cons b bs =>
    simp only [List.head?_cons] at h
    simp only [leadCount]
    rw [if_neg]
    intro hb
    exact h (by rw [hb])

/-- The Bitcoin Base58 alphabet, as UTF-8 byte values: digits `1`-`9`,
uppercase letters without `I` and `O`, lowercase letters without `l`. -/
def ALPHABET : List Nat :=
  [49, 50, 51, 52, 53, 54, 55, 56, 57,
   65, 66, 67, 68, 69, 70, 71, 72,
   74, 75, 76, 77, 78,
   80, 81, 82, 83, 84, 85, 86, 87, 88, 89, 90,
   97, 98, 99, 100, 101, 102, 103, 104, 105, 106, 107,
   109, 110, 111, 112, 113, 114, 115, 116, 117, 118, 119, 120, 121, 122]

/-- Byte of the base58 digit `d`. -/
def b58digit (d : Nat) : Nat := ALPHABET.getD d 0

/-- Index of `c` in a list, if present. -/
def idxIn (c : Nat) : List Nat → Option Nat
  | [] => none
  | a :: as => if a = c then some 0 else (idxIn c as).map (· + 1)

/-- Base58 digit of the byte `c`, if `c` is an alphabet byte. -/
def b58idx (c : Nat) : Option Nat := idxIn c ALPHABET

theorem alphabet_length : ALPHABET.length = 58 := by decide

theorem b58idx_b58digit : ∀ d < 58, b58idx (b58digit d) = some d := by decide

theorem b58idx_one : b58idx 49 = some 0 := by decide

theorem b58digit_ne_one : ∀ d < 58, 0 < d → b58digit d ≠ 49 := by decide

theorem b58digit_mem_alphabet : ∀ d < 58, b58digit d ∈ ALPHABET := by decide

theorem one_mem_alphabet : (49 : Nat) ∈ ALPHABET := by decide

/-- Value of a big-endian digit string in base `B`. -/
def natOfBE (B : Nat) (l : List Nat) : Nat := natOfLE B l.reverse

/-- Big-endian base-`B` digits of `v` (empty for `0`, no leading zero digit). -/
def digitsBE (B v : Nat) : List Nat := (digitsLE B v).reverse

/-- Modelled from the spec: the base58 alphabet primitive of the
`crate::formatting` codec is an external collaborator outside this module
(§4.2): standard Bitcoin-style Base58 with no padding character — each
leading zero byte becomes the digit `1`, and the remaining bytes are
read as one big-endian number written in base 58. -/
def base58Encode (l : List Nat) : List Nat :=
  List.replicate (leadCount 0 l) 49 ++ (digitsBE 58 (natOfBE 256 l)).map b58digit

/-- Digit values of a base58 text, if every byte is an alphabet byte. -/
def textDigits : List Nat → Option (List Nat)
  | [] => some []
  | c :: cs =>
    match b58idx c, textDigits cs with
    | some d, some ds => some (d :: ds)
    | _, _ => none

/-- Modelled from the spec: inverse direction of the external base58
primitive (§4.2) — leading `1` digits become zero bytes, the rest is read
as one base-58 number and written out big-endian, base 256. -/
def base58Decode (s : List Nat) : Option (List Nat) :=
  match textDigits s with
  | none => none
  | some ds =>
    some (List.replicate (leadCount 49 s) 0 ++ digitsBE 256 (natOfBE 58 ds))

theorem textDigits_replicate_one (rest : List Nat) :
    ∀ z, textDigits (List.replicate z 49 ++ rest) =
      (textDigits rest).map (List.replicate z 0 ++ ·)
  | 0 => by cases h : textDigits rest <;> simp [h]
  | z + 1 => by
    rw [List.replicate_succ, List.cons_append]
    rw [show textDigits (49 :: (List.replicate z 49 ++ rest)) =
      match b58idx 49, textDigits (List.replicate z 49 ++ rest) with
      | some d, some ds => some (d :: ds)
      | _, _ => none from rfl]
    rw [b58idx_one, textDigits_replicate_one rest z]
    cases h : textDigits rest <;> simp [List.replicate_succ]

theorem textDigits_map_digit :
    ∀ ds : List Nat, (∀ d ∈ ds, d < 58) → textDigits (ds.map b58digit) = some ds
  | [], _ => rfl
  | d :: ds, h => by
    rw [List.map_cons]
    rw [show textDigits (b58digit d :: ds.map b58digit) =
      match b58idx (b58digit d), textDigits (ds.map b58digit) with
      | some d, some ds => some (d :: ds)
      | _, _ => none from rfl]
    rw [b58idx_b58digit d (h d (by simp)),
      textDigits_map_digit ds (fun x hx => h x (by simp [hx]))]

/-- Decoding inverts encoding on byte lists. -/
theorem base58_roundtrip (l : List Nat) (hl : ∀ x ∈ l, x < 256) :
    base58Decode (base58Encode l) = some l := by
  have h58 : (2 : Nat) ≤ 58 := by omega
  have h256 : (2 : Nat) ≤ 256 := by omega
  set z := leadCount 0 l with hz
  set v := natOfBE 256 l with hv
  have hdig : ∀ d ∈ digitsBE 58 v, d < 58 := fun d hd =>
    digitsLE_mem_lt h58 v d (List.mem_reverse.mp hd)
  -- the digit values recovered from the encoded text
  have htext : textDigits (base58Encode l) =
      some (List.replicate z 0 ++ digitsBE 58 v) := by
    rw [base58Encode, ← hz, ← hv, textDigits_replicate_one,
      textDigits_map_digit _ hdig]
    rfl
  -- the leading `1` count of the encoded text
  have hlead : leadCount 49 (base58Encode l) = z := by
    rw [base58Encode, ← hz, ← hv, leadCount_replicate_append]
    have hz0 : leadCount 49 ((digitsBE 58 v).map b58digit) = 0 := by
      apply leadCount_eq_zero_of_head
      cases hd : digitsBE 58 v with
      | nil => simp
      | cons d ds =>
        have hd0 : d ≠ 0 := by
          have := digitsLE_getLast_ne_zero h58 v
          rw [← List.head?_reverse] at this
          rw [show (digitsLE 58 v).reverse = digitsBE 58 v from rfl, hd] at this
          simpa using this
        have hdlt : d < 58 := hdig d (by rw [hd]; simp)
        simp only [List.map_cons, List.head?_cons]
        intro hc
        simp at hc
        exact b58digit_ne_one d hdlt (Nat.pos_of_ne_zero hd0) hc
    omega
  -- the numeric value recovered from the digit values
  have hval : natOfBE 58 (List.replicate z 0 ++ digitsBE 58 v) = v := by
    rw [natOfBE, List.reverse_append, List.reverse_replicate,
      show (digitsBE 58 v).reverse = digitsLE 58 v by
        rw [digitsBE, List.reverse_reverse],
      natOfLE_append_zeros, natOfLE_digitsLE h58]
  -- the byte suffix recovered from the value
  have htake : l.take z = List.replicate z 0 := take_leadCount 0 l
  have hbytes : digitsBE 256 v = l.drop z := by
    have hsplit : l.reverse = (l.drop z).reverse ++ List.replicate z 0 := by
      conv_lhs => rw [← List.take_append_drop z l]
      rw [List.reverse_append, htake, List.reverse_replicate]
    have hv' : v = natOfLE 256 (l.drop z).reverse := by
      rw [hv, natOfBE, hsplit, natOfLE_append_zeros]
    rw [digitsBE, hv', digitsLE_natOfLE h256 _
      (fun x hx => hl x (List.mem_of_mem_drop (List.mem_reverse.mp hx)))
      (by rw [List.getLast?_reverse]; exact head_drop_leadCount 0 l),
      List.reverse_reverse]
  rw [base58Decode, htext]
  show some (List.replicate (leadCount 49 (base58Encode l)) 0 ++
      digitsBE 256 (natOfBE 58 (List.replicate z 0 ++ digitsBE 58 v))) = some l
  rw [hlead, hval, hbytes, ← htake, List.take_append_drop]

/-- The encoded text is at least as long as the input byte string. -/
theorem base58Encode_length_ge (l : List Nat) (hl : ∀ x ∈ l, x < 256) :
    l.length ≤ (base58Encode l).length := by
  have h58 : (2 : Nat) ≤ 58 := by omega
  set z := leadCount 0 l with hz
  set v := natOfBE 256 l with hv
  have hzle : z ≤ l.length := leadCount_le_length 0 l
  have hlen : (base58Encode l).length = z + (digitsLE 58 v).length := by
    rw [base58Encode, ← hz, ← hv, List.length_append, List.length_replicate,
      List.length_map, digitsBE, List.length_reverse]
  have hmono : (digitsLE 256 v).length ≤ (digitsLE 58 v).length :=
    digitsLE_length_base_mono h58 (by omega) v
  have hdrop : (digitsLE 256 v).length = l.length - z := by
    have hbytes : digitsBE 256 v = l.drop z := by
      have hsplit : l.reverse = (l.drop z).reverse ++ List.replicate z 0 := by
        conv_lhs => rw [← List.take_append_drop z l]
        rw [List.reverse_append, take_leadCount 0 l, List.reverse_replicate]
      have hv' : v = natOfLE 256 (l.drop z).reverse := by
        rw [hv, natOfBE, hsplit, natOfLE_append_zeros]
      rw [digitsBE, hv', digitsLE_natOfLE (by omega) _
        (fun x hx => hl x (List.mem_of_mem_drop (List.mem_reverse.mp hx)))
        (by rw [List.getLast?_reverse]; exact head_drop_leadCount 0 l),
        List.reverse_reverse]
    have := congrArg List.length hbytes
    rw [digitsBE, List.length_reverse, List.length_drop] at this
    exact this
  omega

/-- Every byte of the encoded text is an alphabet byte. -/
theorem base58Encode_mem (l : List Nat) :
    ∀ c ∈ base58Encode l, c ∈ ALPHABET := by
  intro c hc
  rw [base58Encode] at hc
  rcases List.mem_append.mp hc with h | h
  · rw [List.eq_of_mem_replicate h]
    exact one_mem_alphabet
  · rcases List.mem_map.mp h with ⟨d, hd, rfl⟩
    exact b58digit_mem_alphabet d
      (digitsLE_mem_lt (by omega) _ d (List.mem_reverse.mp hd))

/-- Modelled from the spec (§4.2): `formatting::encode_cb58_with_checksum`
is outside this module — canonical text is Base58 of `data ++ checksum`,
where `checksum` is the first 4 bytes of `SHA-256(data)`.  The SHA-256
primitive itself is the function parameter `sha`. -/
def encodeCb58 (sha : List Nat → List Nat) (d : List Nat) : List Nat :=
  base58Encode (d ++ (sha d).take 4)

/-- Modelled from the spec (§4.2): `formatting::decode_cb58_with_checksum`
is outside this module — Base58-decode, split off the last 4 bytes as the
supplied checksum, recompute the checksum over the remaining bytes and
fail on mismatch. -/
def decodeCb58 (sha : List Nat → List Nat) (s : List Nat) : Option (List Nat) :=
  match base58Decode s with
  | none => none
  | some b =>
    if b.length < 4 then none
    else if (sha (b.take (b.length - 4))).take 4 = b.drop (b.length - 4) then
      some (b.take (b.length - 4))
    else none

/-- The properties of the external SHA-256 primitive the proofs rely on:
a digest is 32 bytes, each a byte value. -/
def ShaOk (sha : List Nat → List Nat) : Prop :=
  ∀ l, (sha l).length = 32 ∧ ∀ x ∈ sha l, x < 256

/-- CB58 decoding inverts CB58 encoding. -/
theorem cb58_roundtrip (sha : List Nat → List Nat) (hsha : ShaOk sha)
    (d : List Nat) (hd : ∀ x ∈ d, x < 256) :
    decodeCb58 sha (encodeCb58 sha d) = some d := by
  have hchklen : ((sha d).take 4).length = 4 := by
    rw [List.length_take]
    have := (hsha d).1
    omega
  have hb : ∀ x ∈ d ++ (sha d).take 4, x < 256 := by
    intro x hx
    rcases List.mem_append.mp hx with h | h
    · exact hd x h
    · exact (hsha d).2 x (List.mem_of_mem_take h)
  have hrt := base58_roundtrip (d ++ (sha d).take 4) hb
  rw [decodeCb58, encodeCb58, hrt]
  show (if (d ++ (sha d).take 4).length < 4 then none
    else if (sha ((d ++ (sha d).take 4).take ((d ++ (sha d).take 4).length - 4))).take 4 =
        (d ++ (sha d).take 4).drop ((d ++ (sha d).take 4).length - 4) then
      some ((d ++ (sha d).take 4).take ((d ++ (sha d).take 4).length - 4))
    else none) = some d
  have hlen : (d ++ (sha d).take 4).length = d.length + 4 := by
    rw [List.length_append, hchklen]
  rw [hlen]
  have h4 : ¬ d.length + 4 < 4 := by omega
  rw [if_neg h4]
  have harith : d.length + 4 - 4 = d.length := by omega
  rw [harith]
  have htake : (d ++ (sha d).take 4).take d.length = d := List.take_left d _
  have hdrop : (d ++ (sha d).take 4).drop d.length = (sha d).take 4 :=
    List.drop_left d _
  rw [htake, hdrop, if_pos rfl]

/-- Nominal byte length of an `Id` (`ID_LEN`). -/
def ID_LEN : Nat := 32

/-- Nominal byte length of a `ShortId` (`SHORT_ID_LEN`). -/
def SHORT_ID_LEN : Nat := 20

/-- Nominal byte length of a `NodeId` (`NODE_ID_LEN`). -/
def NODE_ID_LEN : Nat := 20

/-- The UTF-8 bytes of `NODE_ID_ENCODE_PREFIX`, the literal `NodeID-`. -/
def nodeIdPfxBytes : List Nat := [78, 111, 100, 101, 73, 68, 45]

/-- `ids::Id`: a 32-byte general identifier (field `d`). -/
structure Id where
  d : List Nat
  deriving DecidableEq

/-- `ids::ShortId`: a 20-byte address-like identifier (field `d`). -/
structure ShortId where
  d : List Nat
  deriving DecidableEq

/-- `ids::NodeId`: a 20-byte node identifier (field `d`). -/
structure NodeId where
  d : List Nat
  deriving DecidableEq

/-- `Id::from_slice`: `assert!(d.len() <= ID_LEN)`, then right-pads a
shorter input with zero bytes (`Vec::resize`). -/
def Id.fromSlice (b : List Nat) : PResult Id :=
  if b.length ≤ ID_LEN then
    .ok ⟨if b.length < ID_LEN then b ++ List.replicate (ID_LEN - b.length) 0 else b⟩
  else .fatal

/-- `ShortId::from_slice`: `assert!(d.len() <= SHORT_ID_LEN)`, then
right-pads a shorter input with zero bytes. -/
def ShortId.fromSlice (b : List Nat) : PResult ShortId :=
  if b.length ≤ SHORT_ID_LEN then
    .ok ⟨if b.length < SHORT_ID_LEN then
      b ++ List.replicate (SHORT_ID_LEN - b.length) 0 else b⟩
  else .fatal

/-- `NodeId::from_slice`: `assert_eq!(d.len(), SHORT_ID_LEN)` — the input
must be exactly 20 bytes; there is no padding branch. -/
def NodeId.fromSlice (b : List Nat) : PResult NodeId :=
  if b.length = SHORT_ID_LEN then .ok ⟨b⟩ else .fatal

/-- `Ord for Id`: `self.d.cmp(&other.d)`, the lexicographic `Vec<u8>` order. -/
def Id.cmp (x y : Id) : Ordering := listCmp natCmp x.d y.d

/-- `PartialEq for Id`: `self.cmp(other) == Ordering::Equal`. -/
def Id.peq (x y : Id) : Bool := Id.cmp x y == Ordering.eq

/-- `Hash for Id` hashes the byte buffer `d`; the hasher is abstracted as
an arbitrary digest function of the buffer. -/
def Id.hashWith (f : List Nat → Nat) (x : Id) : Nat := f x.d

/-- `Ord for ShortId`: `self.d.cmp(&other.d)`. -/
def ShortId.cmp (x y : ShortId) : Ordering := listCmp natCmp x.d y.d

/-- `PartialEq for ShortId`: `self.cmp(other) == Ordering::Equal`. -/
def ShortId.peq (x y : ShortId) : Bool := ShortId.cmp x y == Ordering.eq

/-- `Hash for ShortId` hashes the byte buffer `d`. -/
def ShortId.hashWith (f : List Nat → Nat) (x : ShortId) : Nat := f x.d

/-- `Ord for NodeId`: `self.d.cmp(&other.d)`. -/
def NodeId.cmp (x y : NodeId) : Ordering := listCmp natCmp x.d y.d

/-- `PartialEq for NodeId`: `self.cmp(other) == Ordering::Equal`. -/
def NodeId.peq (x y : NodeId) : Bool := NodeId.cmp x y == Ordering.eq

/-- `Hash for NodeId` hashes the byte buffer `d`. -/
def NodeId.hashWith (f : List Nat → Nat) (x : NodeId) : Nat := f x.d

/-- `Display for Id`: `encode_cb58_with_checksum(&self.d)`. -/
def Id.toText (sha : List Nat → List Nat) (x : Id) : List Nat :=
  encodeCb58 sha x.d

/-- `FromStr for Id`: decode CB58 (an `Err` on failure), then `from_slice`
on the decoded bytes (which asserts their length). -/
def Id.fromText (sha : List Nat → List Nat) (s : List Nat) : PResult Id :=
  match decodeCb58 sha s with
  | none => .err "failed decode_cb58_with_checksum"
  | some b => Id.fromSlice b

/-- `Display for ShortId`: `encode_cb58_with_checksum(&self.d)`. -/
def ShortId.toText (sha : List Nat → List Nat) (x : ShortId) : List Nat :=
  encodeCb58 sha x.d

/-- `FromStr for ShortId`. -/
def ShortId.fromText (sha : List Nat → List Nat) (s : List Nat) : PResult ShortId :=
  match decodeCb58 sha s with
  | none => .err "failed decode_cb58_with_checksum"
  | some b => ShortId.fromSlice b

/-- `strip_node_id_prefix`: slices `&addr[0..7]` — a process-fatal
out-of-bounds violation when the input is shorter than 7 bytes — and
drops the leading `NodeID-` when present. -/
def stripNodeIdPfx (addr : List Nat) : PResult (List Nat) :=
  if addr.length < nodeIdPfxBytes.length then .fatal
  else if addr.take nodeIdPfxBytes.length = nodeIdPfxBytes then
    .ok (addr.drop nodeIdPfxBytes.length)
  else .ok addr

/-- `Display for NodeId`: the literal `NodeID-` followed by
`encode_cb58_with_checksum(&self.d)`. -/
def NodeId.toText (sha : List Nat → List Nat) (x : NodeId) : List Nat :=
  nodeIdPfxBytes ++ encodeCb58 sha x.d

/-- `FromStr for NodeId`: strip the `NodeID-` literal if present, decode
CB58, then `from_slice` (which asserts an exactly-20-byte result). -/
def NodeId.fromText (sha : List Nat → List Nat) (s : List Nat) : PResult NodeId :=
  match stripNodeIdPfx s with
  | .fatal => .fatal
  | .err e => .err e
  | .ok t =>
    match decodeCb58 sha t with
    | none => .err "failed decode_cb58_with_checksum"
    | some b => NodeId.fromSlice b

/-- `NodeId::short_id`: `ShortId::from_slice(&self.d)`. -/
def NodeId.shortId (x : NodeId) : PResult ShortId := ShortId.fromSlice x.d

/-- Big-endian 8-byte serialization of an unsigned 64-bit tag. -/
def packU64BE (v : Nat) : List Nat :=
  [v / 2 ^ 56 % 256, v / 2 ^ 48 % 256, v / 2 ^ 40 % 256, v / 2 ^ 32 % 256,
   v / 2 ^ 24 % 256, v / 2 ^ 16 % 256, v / 2 ^ 8 % 256, v % 256]

/-- Modelled from the spec: `packer::Packer` (the generic byte-packing
utility) lives outside this module; per §4.4 it serializes each `u64` tag
as a big-endian 8-byte value and concatenates, then appends raw bytes.
The spec gives no size-limit semantics, so the `max_size` argument
computed in `Id::prefix` is not modelled. -/
structure Packer where
  bytes : List Nat

/-- `Packer::pack_u64`: append the 8 big-endian bytes of `v`. -/
def Packer.packU64 (p : Packer) (v : Nat) : Packer :=
  ⟨p.bytes ++ packU64BE v⟩

/-- `Packer::pack_bytes`: append raw bytes. -/
def Packer.packBytes (p : Packer) (b : List Nat) : Packer :=
  ⟨p.bytes ++ b⟩

/-- `Packer::take_bytes`. -/
def Packer.takeBytes (p : Packer) : List Nat := p.bytes

/-- `Id::prefix`: pack each tag as a big-endian `u64`, pack the 32 raw
bytes, hash the packed bytes with SHA-256 and build the result with
`from_slice`. -/
def Id.prefixTags (sha : List Nat → List Nat) (x : Id) (ps : List Nat) : PResult Id :=
  let pk : Packer := ⟨[]⟩
  let pk := ps.foldl Packer.packU64 pk
  let pk := pk.packBytes x.d
  Id.fromSlice (sha pk.takeBytes)

/-- Concatenation of the tag serializations, in sequence order, as the
specification words it. -/
def tagsConcat : List Nat → List Nat
  | [] => []
  | p :: ps => packU64BE p ++ tagsConcat ps

/-- The derived sub-identifier as the specification words it: the Id built
from the SHA-256 digest of the tag serializations followed by the
identifier's raw bytes. -/
def prefixTagsSpec (sha : List Nat → List Nat) (x : Id) (ps : List Nat) : PResult Id :=
  Id.fromSlice (sha (tagsConcat ps ++ x.d))

/-- `deserialize_id`: an absent (`None`) field is no value; a present field
is parsed as an `Id`, a parse failure failing the whole deserialization. -/
def deserializeId (sha : List Nat → List Nat) :
    Option (List Nat) → PResult (Option Id)
  | none => .ok none
  | some s =>
    match Id.fromText sha s with
    | .ok i => .ok (some i)
    | .err e => .err e
    | .fatal => .fatal

/-- `must_deserialize_id`: an absent field is a deserialization error; a
present field is parsed as an `Id`. -/
def mustDeserializeId (sha : List Nat → List Nat) :
    Option (List Nat) → PResult Id
  | none => .err "empty Id from deserialization"
  | some s => Id.fromText sha s

/-- `deserialize_short_id`. -/
def deserializeShortId (sha : List Nat → List Nat) :
    Option (List Nat) → PResult (Option ShortId)
  | none => .ok none
  | some s =>
    match ShortId.fromText sha s with
    | .ok i => .ok (some i)
    | .err e => .err e
    | .fatal => .fatal

/-- `must_deserialize_short_id`. -/
def mustDeserializeShortId (sha : List Nat → List Nat) :
    Option (List Nat) → PResult ShortId
  | none => .err "empty ShortId from deserialization"
  | some s => ShortId.fromText sha s

/-- `deserialize_node_id`. -/
def deserializeNodeId (sha : List Nat → List Nat) :
    Option (List Nat) → PResult (Option NodeId)
  | none => .ok none
  | some s =>
    match NodeId.fromText sha s with
    | .ok i => .ok (some i)
    | .err e => .err e
    | .fatal => .fatal

/-- `must_deserialize_node_id`. -/
def mustDeserializeNodeId (sha : List Nat → List Nat) :
    Option (List Nat) → PResult NodeId
  | none => .err "empty NodeId from deserialization"
  | some s => NodeId.fromText sha s

/-- `Ord for Ids`: compare the sequence lengths first, then the element
sequences (`l1.cmp(&l2).then_with(|| self.0.cmp(&other.0))`). -/
def idsCmp (a b : List Id) : Ordering :=
  (natCmp a.length b.length).then (listCmp Id.cmp a b)

/-- `PartialEq for Ids`: `self.cmp(other) == Ordering::Equal`. -/
def idsPeq (a b : List Id) : Bool := idsCmp a b == Ordering.eq

/-- `Ord for ShortIds`. -/
def shortIdsCmp (a b : List ShortId) : Ordering :=
  (natCmp a.length b.length).then (listCmp ShortId.cmp a b)

/-- `PartialEq for ShortIds`. -/
def shortIdsPeq (a b : List ShortId) : Bool := shortIdsCmp a b == Ordering.eq

/-- `Ord for NodeIds`. -/
def nodeIdsCmp (a b : List NodeId) : Ordering :=
  (natCmp a.length b.length).then (listCmp NodeId.cmp a b)

/-- `PartialEq for NodeIds`. -/
def nodeIdsPeq (a b : List NodeId) : Bool := nodeIdsCmp a b == Ordering.eq

/-- Element-by-element comparison where the first differing element
decides, as the specification words the equal-length collection order. -/
def specElemwise (f : α → α → Ordering) : List α → List α → Ordering
  | a :: as, b :: bs =>
    match f a b with
    | .eq => specElemwise f as bs
    | o => o
  | _, _ => .eq

/-- Unsigned byte-lexicographic comparison, most-significant byte first,
as the specification words the identifier order. -/
def specByteLex : List Nat → List Nat → Ordering
  | a :: as, b :: bs =>
    if a < b then .lt else if b < a then .gt else specByteLex as bs
  | _, _ => .eq

theorem listCmp_eq_specElemwise (f : α → α → Ordering) :
    ∀ a b : List α, a.length = b.length → listCmp f a b = specElemwise f a b
  | [], [], _ => rfl
  | [], _ :: _, h => by simp at h
  | _ :: _, [], h => by simp at h
  | a :: as, b :: bs, h => by
    have hlen : as.length = bs.length := by simpa using h
    show (f a b).then (listCmp f as bs) = specElemwise f (a :: as) (b :: bs)
    cases hf : f a b <;>
      simp [specElemwise, Ordering.then, hf, listCmp_eq_specElemwise f as bs hlen]

theorem listCmp_natCmp_eq_specByteLex :
    ∀ a b : List Nat, a.length = b.length → listCmp natCmp a b = specByteLex a b
  | [], [], _ => rfl
  | [], _ :: _, h => by simp at h
  | _ :: _, [], h => by simp at h
  | a :: as, b :: bs, h => by
    have hlen : as.length = bs.length := by simpa using h
    show (natCmp a b).then (listCmp natCmp as bs) = specByteLex (a :: as) (b :: bs)
    rcases Nat.lt_trichotomy a b with hab | hab | hab
    · rw [show natCmp a b = .lt from natCmp_eq_lt.mpr hab]
      show Ordering.lt = if a < b then .lt else if b < a then .gt else specByteLex as bs
      rw [if_pos hab]
    · subst hab
      rw [show natCmp a a = .eq from natCmp_eq_eq.mpr rfl]
      show listCmp natCmp as bs =
        if a < a then .lt else if a < a then .gt else specByteLex as bs
      rw [if_neg (lt_irrefl a), if_neg (lt_irrefl a)]
      exact listCmp_natCmp_eq_specByteLex as bs hlen
    · rw [show natCmp a b = .gt from natCmp_eq_gt.mpr hab]
      show Ordering.gt = if a < b then .lt else if b < a then .gt else specByteLex as bs
      rw [if_neg (by omega), if_pos hab]

/-- Exactly one of three alternatives holds. -/
def exactlyOneOf (P Q R : Prop) : Prop :=
  (P ∧ ¬Q ∧ ¬R) ∨ (¬P ∧ Q ∧ ¬R) ∨ (¬P ∧ ¬Q ∧ R)

theorem cmp_exactlyOne (o : Ordering) :
    exactlyOneOf (o = .lt) (o = .eq) (o = .gt) := by
  cases o <;> simp [exactlyOneOf]

theorem id_fromSlice_exact {b : List Nat} (h : b.length = ID_LEN) :
    Id.fromSlice b = .ok ⟨b⟩ := by
  rw [Id.fromSlice, if_pos (by omega), if_neg (by omega)]

theorem shortId_fromSlice_exact {b : List Nat} (h : b.length = SHORT_ID_LEN) :
    ShortId.fromSlice b = .ok ⟨b⟩ := by
  rw [ShortId.fromSlice, if_pos (by omega), if_neg (by omega)]

theorem nodeId_fromSlice_exact {b : List Nat} (h : b.length = SHORT_ID_LEN) :
    NodeId.fromSlice b = .ok ⟨b⟩ := by
  rw [NodeId.fromSlice, if_pos h]

theorem packer_foldl_bytes :
    ∀ (ps : List Nat) (acc : List Nat),
      (ps.foldl Packer.packU64 ⟨acc⟩).bytes = acc ++ tagsConcat ps
  | [], acc => by simp [tagsConcat]
  | p :: ps, acc => by
    rw [List.foldl_cons]
    show (ps.foldl Packer.packU64 ⟨acc ++ packU64BE p⟩).bytes = _
    rw [packer_foldl_bytes ps (acc ++ packU64BE p), tagsConcat,
      List.append_assoc]

/-- C1: for every Id `x` and every sequence of unsigned 64-bit tags `ps`,
`Id::prefix(x, ps)` equals the Id built from the SHA-256 digest of the
concatenation of each tag serialized as an 8-byte big-endian value, in
sequence order, followed by `x`'s raw bytes — for tag sequences of every
length, including length 0 and lengths of 2 or more. -/
theorem C1_tag_derivation (sha : List Nat → List Nat) (x : Id) (ps : List Nat) :
    Id.prefixTags sha x ps = prefixTagsSpec sha x ps := by
  rw [Id.prefixTags, prefixTagsSpec]
  show Id.fromSlice (sha (Packer.packBytes (ps.foldl Packer.packU64 ⟨[]⟩) x.d).bytes) = _
  rw [Packer.packBytes]
  show Id.fromSlice (sha ((ps.foldl Packer.packU64 ⟨[]⟩).bytes ++ x.d)) = _
  rw [packer_foldl_bytes ps []]
  rw [List.nil_append]

/-- C2 as stated is false: `NodeId::from_slice` does not accept the empty
input and right-pad it; it asserts the input is exactly 20 bytes, so the
length-0 input is a precondition violation, not the padded all-zero value. -/
theorem C2_cex_nodeId_empty_not_padded :
    NodeId.fromSlice [] = PResult.fatal ∧
      NodeId.fromSlice [] ≠ PResult.ok ⟨List.replicate 20 0⟩ := by
  decide

/-- C2 amended: `Id::from_slice` and `ShortId::from_slice` accept inputs of
length 0 up to the nominal length (32 and 20), right-pad shorter inputs
with zero bytes, and fail as a non-catchable precondition violation exactly
when the input exceeds the nominal length; `NodeId::from_slice` instead
requires the input to be exactly 20 bytes and fails as a precondition
violation on any other length, shorter inputs included. -/
theorem C2_from_slice_contract (b : List Nat) :
    (b.length ≤ ID_LEN →
      Id.fromSlice b = .ok ⟨b ++ List.replicate (ID_LEN - b.length) 0⟩) ∧
    (ID_LEN < b.length → Id.fromSlice b = .fatal) ∧
    (b.length ≤ SHORT_ID_LEN →
      ShortId.fromSlice b = .ok ⟨b ++ List.replicate (SHORT_ID_LEN - b.length) 0⟩) ∧
    (SHORT_ID_LEN < b.length → ShortId.fromSlice b = .fatal) ∧
    (b.length = SHORT_ID_LEN → NodeId.fromSlice b = .ok ⟨b⟩) ∧
    (b.length ≠ SHORT_ID_LEN → NodeId.fromSlice b = .fatal) := by
  refine ⟨fun h => ?_, fun h => ?_, fun h => ?_, fun h => ?_, fun h => ?_, fun h => ?_⟩
  · rw [Id.fromSlice, if_pos h]
    rcases Nat.lt_or_ge b.length ID_LEN with hlt | hge
    · rw [if_pos hlt]
    · have heq : b.length = ID_LEN := by omega
      rw [if_neg (by omega)]
      rw [heq, Nat.sub_self, List.replicate_zero, List.append_nil]
  · rw [Id.fromSlice, if_neg (by omega)]
  · rw [ShortId.fromSlice, if_pos h]
    rcases Nat.lt_or_ge b.length SHORT_ID_LEN with hlt | hge
    · rw [if_pos hlt]
    · have heq : b.length = SHORT_ID_LEN := by omega
      rw [if_neg (by omega)]
      rw [heq, Nat.sub_self, List.replicate_zero, List.append_nil]
  · rw [ShortId.fromSlice, if_neg (by omega)]
  · rw [NodeId.fromSlice, if_pos h]
  · rw [NodeId.fromSlice, if_neg h]

theorem C2_from_slice_contract_witness :
    Id.fromSlice [1] = .ok ⟨[1] ++ List.replicate 31 0⟩ ∧
    Id.fromSlice (List.replicate 33 0) = .fatal ∧
    ShortId.fromSlice [2] = .ok ⟨[2] ++ List.replicate 19 0⟩ ∧
    ShortId.fromSlice (List.replicate 21 0) = .fatal ∧
    NodeId.fromSlice (List.replicate 20 7) = .ok ⟨List.replicate 20 7⟩ ∧
    NodeId.fromSlice [1, 2] = .fatal := by
  refine ⟨?_, ?_, ?_, ?_, ?_, ?_⟩
  · have h := (C2_from_slice_contract [1]).1 (by decide)
    simpa using h
  · exact (C2_from_slice_contract (List.replicate 33 0)).2.1 (by decide)
  · have h := (C2_from_slice_contract [2]).2.2.1 (by decide)
    simpa using h
  · exact (C2_from_slice_contract (List.replicate 21 0)).2.2.2.1 (by decide)
  · exact (C2_from_slice_contract (List.replicate 20 7)).2.2.2.2.1 (by decide)
  · exact (C2_from_slice_contract [1, 2]).2.2.2.2.2 (by decide)

/-- C8: `NodeId::short_id()` reinterprets the NodeId's bytes as a ShortId
without re-hashing: for every 20-byte value `b`,
`NodeId::from_slice(b).short_id()` equals `ShortId::from_slice(b)`, and the
resulting ShortId's byte buffer is identical to the NodeId's. -/
theorem C8_short_id_same_bytes (b : List Nat) (h : b.length = 20) :
    NodeId.fromSlice b = .ok ⟨b⟩ ∧
    NodeId.shortId ⟨b⟩ = ShortId.fromSlice b ∧
    NodeId.shortId ⟨b⟩ = .ok ⟨b⟩ ∧
    (NodeId.mk b).d = (ShortId.mk b).d := by
  refine ⟨nodeId_fromSlice_exact (by rw [h]; rfl), rfl, ?_, rfl⟩
  rw [NodeId.shortId]
  exact shortId_fromSlice_exact (by rw [h]; rfl)

theorem C8_short_id_same_bytes_witness :
    NodeId.shortId ⟨List.replicate 20 3⟩ = .ok ⟨List.replicate 20 3⟩ :=
  (C8_short_id_same_bytes (List.replicate 20 3) (by decide)).2.2.1

/-- C10: NodeId parsing is not total — for any input shorter than the
7-byte literal `NodeID-`, in particular the empty string, `FromStr` for
`NodeId` hits an out-of-bounds string slice in `strip_node_id_prefix`
(a process-fatal violation), instead of returning a `DecodeError`. -/
theorem C10_short_input_fatal (sha : List Nat → List Nat) (s : List Nat)
    (h : s.length < nodeIdPfxBytes.length) :
    NodeId.fromText sha s = .fatal := by
  rw [NodeId.fromText, stripNodeIdPfx, if_pos h]

theorem C10_short_input_fatal_witness :
    NodeId.fromText (fun _ => List.replicate 32 0) [] = .fatal :=
  C10_short_input_fatal (fun _ => List.replicate 32 0) [] (by decide)

theorem collCmp_props (f : α → α → Ordering) (a b : List α) :
    (a.length < b.length → (natCmp a.length b.length).then (listCmp f a b) = .lt) ∧
    (b.length < a.length → (natCmp a.length b.length).then (listCmp f a b) = .gt) ∧
    (a.length = b.length →
      (natCmp a.length b.length).then (listCmp f a b) = specElemwise f a b) ∧
    ((natCmp a.length b.length).then (listCmp f a b) = .eq ↔
      a.length = b.length ∧ List.Forall₂ (fun x y => f x y = .eq) a b) := by
  refine ⟨fun h => ?_, fun h => ?_, fun h => ?_, ?_⟩
  · rw [natCmp_eq_lt.mpr h]
    rfl
  · rw [natCmp_eq_gt.mpr h]
    rfl
  · rw [natCmp_eq_eq.mpr h]
    show listCmp f a b = specElemwise f a b
    exact listCmp_eq_specElemwise f a b h
  · rw [ordering_then_eq_eq, natCmp_eq_eq, listCmp_eq_eq_iff_forall₂]

theorem ord_beq_eq (o p : Ordering) : (o == p) = true ↔ o = p := by
  cases o <;> cases p <;> decide

theorem id_peq_iff {x y : Id} : Id.peq x y = true ↔ Id.cmp x y = .eq :=
  ord_beq_eq _ _

theorem shortId_peq_iff {x y : ShortId} :
    ShortId.peq x y = true ↔ ShortId.cmp x y = .eq :=
  ord_beq_eq _ _

theorem nodeId_peq_iff {x y : NodeId} :
    NodeId.peq x y = true ↔ NodeId.cmp x y = .eq :=
  ord_beq_eq _ _

theorem peq_rel_id :
    (fun x y : Id => Id.peq x y = true) = (fun x y : Id => Id.cmp x y = .eq) := by
  funext x y
  exact propext id_peq_iff

theorem peq_rel_shortId :
    (fun x y : ShortId => ShortId.peq x y = true) =
      (fun x y : ShortId => ShortId.cmp x y = .eq) := by
  funext x y
  exact propext shortId_peq_iff

theorem peq_rel_nodeId :
    (fun x y : NodeId => NodeId.peq x y = true) =
      (fun x y : NodeId => NodeId.cmp x y = .eq) := by
  funext x y
  exact propext nodeId_peq_iff

/-- C5: the order on `Ids`, `ShortIds` and `NodeIds` compares sequence
length first — a shorter collection is strictly less regardless of element
values — and for equal lengths compares element-by-element in the element
type's own order, the first differing element deciding; equality holds iff
the lengths are equal and all corresponding elements are equal. -/
theorem C5_collection_order :
    (∀ a b : List Id,
      (a.length < b.length → idsCmp a b = .lt) ∧
      (b.length < a.length → idsCmp a b = .gt) ∧
      (a.length = b.length → idsCmp a b = specElemwise Id.cmp a b) ∧
      (idsPeq a b = true ↔
        a.length = b.length ∧ List.Forall₂ (fun x y => Id.peq x y = true) a b)) ∧
    (∀ a b : List ShortId,
      (a.length < b.length → shortIdsCmp a b = .lt) ∧
      (b.length < a.length → shortIdsCmp a b = .gt) ∧
      (a.length = b.length → shortIdsCmp a b = specElemwise ShortId.cmp a b) ∧
      (shortIdsPeq a b = true ↔
        a.length = b.length ∧ List.Forall₂ (fun x y => ShortId.peq x y = true) a b)) ∧
    (∀ a b : List NodeId,
      (a.length < b.length → nodeIdsCmp a b = .lt) ∧
      (b.length < a.length → nodeIdsCmp a b = .gt) ∧
      (a.length = b.length → nodeIdsCmp a b = specElemwise NodeId.cmp a b) ∧
      (nodeIdsPeq a b = true ↔
        a.length = b.length ∧ List.Forall₂ (fun x y => NodeId.peq x y = true) a b)) := by
  refine ⟨fun a b => ?_, fun a b => ?_, fun a b => ?_⟩
  · obtain ⟨h1, h2, h3, h4⟩ := collCmp_props Id.cmp a b
    refine ⟨h1, h2, h3, (ord_beq_eq _ _).trans ?_⟩
    rw [peq_rel_id]
    exact h4
  · obtain ⟨h1, h2, h3, h4⟩ := collCmp_props ShortId.cmp a b
    refine ⟨h1, h2, h3, (ord_beq_eq _ _).trans ?_⟩
    rw [peq_rel_shortId]
    exact h4
  · obtain ⟨h1, h2, h3, h4⟩ := collCmp_props NodeId.cmp a b
    refine ⟨h1, h2, h3, (ord_beq_eq _ _).trans ?_⟩
    rw [peq_rel_nodeId]
    exact h4

theorem C5_collection_order_witness :
    idsCmp [⟨[9]⟩] [⟨[1]⟩, ⟨[2]⟩] = .lt ∧
    shortIdsCmp [⟨[1]⟩, ⟨[2]⟩] [⟨[9]⟩] = .gt ∧
    nodeIdsCmp [⟨[1]⟩, ⟨[2]⟩] [⟨[1]⟩, ⟨[3]⟩] =
      specElemwise NodeId.cmp [⟨[1]⟩, ⟨[2]⟩] [⟨[1]⟩, ⟨[3]⟩] := by
  refine ⟨?_, ?_, ?_⟩
  · exact (C5_collection_order.1 [⟨[9]⟩] [⟨[1]⟩, ⟨[2]⟩]).1 (by decide)
  · exact (C5_collection_order.2.1 [⟨[1]⟩, ⟨[2]⟩] [⟨[9]⟩]).2.1 (by decide)
  · exact (C5_collection_order.2.2 [⟨[1]⟩, ⟨[2]⟩] [⟨[1]⟩, ⟨[3]⟩]).2.2.1 (by decide)

/-- C6: identifier comparison is a total order matching unsigned
byte-lexicographic comparison of the fixed-length buffer: for every two
constructed identifiers, exactly one of less / equal / greater holds, the
comparison agrees with the lexicographic byte comparison, and two
identifiers are equal iff all bytes are equal — for `Id`, `ShortId` and
`NodeId`. -/
theorem C6_total_order :
    (∀ x y : Id, x.d.length = ID_LEN → y.d.length = ID_LEN →
      exactlyOneOf (Id.cmp x y = .lt) (Id.cmp x y = .eq) (Id.cmp x y = .gt) ∧
      Id.cmp x y = specByteLex x.d y.d ∧
      (Id.peq x y = true ↔ x.d = y.d)) ∧
    (∀ x y : ShortId, x.d.length = SHORT_ID_LEN → y.d.length = SHORT_ID_LEN →
      exactlyOneOf (ShortId.cmp x y = .lt) (ShortId.cmp x y = .eq)
        (ShortId.cmp x y = .gt) ∧
      ShortId.cmp x y = specByteLex x.d y.d ∧
      (ShortId.peq x y = true ↔ x.d = y.d)) ∧
    (∀ x y : NodeId, x.d.length = NODE_ID_LEN → y.d.length = NODE_ID_LEN →
      exactlyOneOf (NodeId.cmp x y = .lt) (NodeId.cmp x y = .eq)
        (NodeId.cmp x y = .gt) ∧
      NodeId.cmp x y = specByteLex x.d y.d ∧
      (NodeId.peq x y = true ↔ x.d = y.d)) := by
  refine ⟨fun x y hx hy => ?_, fun x y hx hy => ?_, fun x y hx hy => ?_⟩
  · exact ⟨cmp_exactlyOne _, listCmp_natCmp_eq_specByteLex _ _ (by rw [hx, hy]),
      id_peq_iff.trans listCmp_natCmp_eq_eq⟩
  · exact ⟨cmp_exactlyOne _, listCmp_natCmp_eq_specByteLex _ _ (by rw [hx, hy]),
      shortId_peq_iff.trans listCmp_natCmp_eq_eq⟩
  · exact ⟨cmp_exactlyOne _, listCmp_natCmp_eq_specByteLex _ _ (by rw [hx, hy]),
      nodeId_peq_iff.trans listCmp_natCmp_eq_eq⟩

theorem C6_total_order_witness :
    Id.cmp ⟨List.replicate 32 0⟩ ⟨List.replicate 32 1⟩ =
      specByteLex (List.replicate 32 0) (List.replicate 32 1) :=
  (C6_total_order.1 ⟨List.replicate 32 0⟩ ⟨List.replicate 32 1⟩
    (by decide) (by decide)).2.1

/-- C7: hash is consistent with equality — for every two identifier values
of the same type, equality (defined over the full byte buffer) implies the
hash (computed over the same buffer) agrees, for any hasher. -/
theorem C7_hash_consistent (f : List Nat → Nat) :
    (∀ x y : Id, Id.peq x y = true → Id.hashWith f x = Id.hashWith f y) ∧
    (∀ x y : ShortId, ShortId.peq x y = true →
      ShortId.hashWith f x = ShortId.hashWith f y) ∧
    (∀ x y : NodeId, NodeId.peq x y = true →
      NodeId.hashWith f x = NodeId.hashWith f y) := by
  refine ⟨fun x y h => ?_, fun x y h => ?_, fun x y h => ?_⟩
  · show f x.d = f y.d
    rw [listCmp_natCmp_eq_eq.mp (id_peq_iff.mp h)]
  · show f x.d = f y.d
    rw [listCmp_natCmp_eq_eq.mp (shortId_peq_iff.mp h)]
  · show f x.d = f y.d
    rw [listCmp_natCmp_eq_eq.mp (nodeId_peq_iff.mp h)]

theorem C7_hash_consistent_witness :
    Id.hashWith List.length ⟨[5, 6]⟩ = Id.hashWith List.length ⟨[5, 6]⟩ :=
  (C7_hash_consistent List.length).1 ⟨[5, 6]⟩ ⟨[5, 6]⟩ (by decide)

theorem shaZero_ok : ShaOk (fun _ => List.replicate 32 0) := by
  intro l
  constructor
  · show (List.replicate 32 0).length = 32
    decide
  · show ∀ x ∈ List.replicate 32 0, x < 256
    decide

theorem stripNodeIdPfx_append (s : List Nat) :
    stripNodeIdPfx (nodeIdPfxBytes ++ s) = .ok s := by
  rw [stripNodeIdPfx, if_neg (by simp [nodeIdPfxBytes]),
    if_pos (List.take_left nodeIdPfxBytes s), List.drop_left]

theorem stripNodeIdPfx_encode (sha : List Nat → List Nat) (hsha : ShaOk sha)
    (b : List Nat) (hb : b.length = 20) (hbb : ∀ x ∈ b, x < 256) :
    stripNodeIdPfx (encodeCb58 sha b) = .ok (encodeCb58 sha b) := by
  have hbytes : ∀ x ∈ b ++ (sha b).take 4, x < 256 := by
    intro x hx
    rcases List.mem_append.mp hx with h | h
    · exact hbb x h
    · exact (hsha b).2 x (List.mem_of_mem_take h)
  have hlen24 : 24 ≤ (encodeCb58 sha b).length := by
    have h1 := base58Encode_length_ge (b ++ (sha b).take 4) hbytes
    have h2 : (b ++ (sha b).take 4).length = 24 := by
      rw [List.length_append, List.length_take, hb, (hsha b).1]
      omega
    rw [encodeCb58]
    omega
  have h7 : nodeIdPfxBytes.length = 7 := rfl
  rw [stripNodeIdPfx, if_neg (by omega)]
  rw [if_neg]
  intro htake
  have h73 : (73 : Nat) ∈ (encodeCb58 sha b).take nodeIdPfxBytes.length := by
    rw [htake]
    decide
  have hmem : (73 : Nat) ∈ encodeCb58 sha b := List.mem_of_mem_take h73
  exact absurd (base58Encode_mem _ 73 hmem) (by decide)

theorem node_fromText_withPfx (sha : List Nat → List Nat) (hsha : ShaOk sha)
    (b : List Nat) (hb : b.length = 20) (hbb : ∀ x ∈ b, x < 256) :
    NodeId.fromText sha (nodeIdPfxBytes ++ encodeCb58 sha b) = .ok ⟨b⟩ := by
  rw [NodeId.fromText, stripNodeIdPfx_append]
  show (match decodeCb58 sha (encodeCb58 sha b) with
    | none => (.err "failed decode_cb58_with_checksum" : PResult NodeId)
    | some c => NodeId.fromSlice c) = .ok ⟨b⟩
  rw [cb58_roundtrip sha hsha b hbb]
  exact nodeId_fromSlice_exact (by rw [hb]; rfl)

theorem node_fromText_noPfx (sha : List Nat → List Nat) (hsha : ShaOk sha)
    (b : List Nat) (hb : b.length = 20) (hbb : ∀ x ∈ b, x < 256) :
    NodeId.fromText sha (encodeCb58 sha b) = .ok ⟨b⟩ := by
  rw [NodeId.fromText, stripNodeIdPfx_encode sha hsha b hb hbb]
  show (match decodeCb58 sha (encodeCb58 sha b) with
    | none => (.err "failed decode_cb58_with_checksum" : PResult NodeId)
    | some c => NodeId.fromSlice c) = .ok ⟨b⟩
  rw [cb58_roundtrip sha hsha b hbb]
  exact nodeId_fromSlice_exact (by rw [hb]; rfl)

/-- C3: a NodeId's text form is the literal `NodeID-` followed by the
Base58Check encoding of its 20 bytes, and parsing accepts the text both
with and without the literal, yielding the identical NodeId value. -/
theorem C3_node_text_both_ways (sha : List Nat → List Nat) (hsha : ShaOk sha)
    (b : List Nat) (hb : b.length = 20) (hbb : ∀ x ∈ b, x < 256) :
    NodeId.toText sha ⟨b⟩ = nodeIdPfxBytes ++ encodeCb58 sha b ∧
    NodeId.fromText sha (NodeId.toText sha ⟨b⟩) = .ok ⟨b⟩ ∧
    NodeId.fromText sha (encodeCb58 sha b) = .ok ⟨b⟩ :=
  ⟨rfl, node_fromText_withPfx sha hsha b hb hbb,
    node_fromText_noPfx sha hsha b hb hbb⟩

theorem C3_node_text_both_ways_witness :
    NodeId.fromText (fun _ => List.replicate 32 0)
        (NodeId.toText (fun _ => List.replicate 32 0) ⟨List.replicate 20 0⟩) =
      .ok ⟨List.replicate 20 0⟩ ∧
    NodeId.fromText (fun _ => List.replicate 32 0)
        (encodeCb58 (fun _ => List.replicate 32 0) (List.replicate 20 0)) =
      .ok ⟨List.replicate 20 0⟩ := by
  have h := C3_node_text_both_ways (fun _ => List.replicate 32 0)
    shaZero_ok (List.replicate 20 0) (by decide) (by decide)
  exact ⟨h.2.1, h.2.2⟩

/-- C4: round-trip through the canonical text form — for every byte buffer
of exactly the nominal length, parsing the displayed text of
`from_slice(b)` succeeds and yields `from_slice(b)` again, for `Id`,
`ShortId` and `NodeId`. -/
theorem C4_text_roundtrip (sha : List Nat → List Nat) (hsha : ShaOk sha) :
    (∀ b : List Nat, b.length = ID_LEN → (∀ x ∈ b, x < 256) →
      Id.fromSlice b = .ok ⟨b⟩ ∧
      Id.fromText sha (Id.toText sha ⟨b⟩) = .ok ⟨b⟩) ∧
    (∀ b : List Nat, b.length = SHORT_ID_LEN → (∀ x ∈ b, x < 256) →
      ShortId.fromSlice b = .ok ⟨b⟩ ∧
      ShortId.fromText sha (ShortId.toText sha ⟨b⟩) = .ok ⟨b⟩) ∧
    (∀ b : List Nat, b.length = NODE_ID_LEN → (∀ x ∈ b, x < 256) →
      NodeId.fromSlice b = .ok ⟨b⟩ ∧
      NodeId.fromText sha (NodeId.toText sha ⟨b⟩) = .ok ⟨b⟩) := by
  refine ⟨fun b hb hbb => ⟨id_fromSlice_exact hb, ?_⟩,
    fun b hb hbb => ⟨shortId_fromSlice_exact hb, ?_⟩,
    fun b hb hbb => ⟨nodeId_fromSlice_exact hb, ?_⟩⟩
  · rw [Id.toText, Id.fromText]
    show (match decodeCb58 sha (encodeCb58 sha b) with
      | none => (.err "failed decode_cb58_with_checksum" : PResult Id)
      | some c => Id.fromSlice c) = .ok ⟨b⟩
    rw [cb58_roundtrip sha hsha b hbb]
    exact id_fromSlice_exact hb
  · rw [ShortId.toText, ShortId.fromText]
    show (match decodeCb58 sha (encodeCb58 sha b) with
      | none => (.err "failed decode_cb58_with_checksum" : PResult ShortId)
      | some c => ShortId.fromSlice c) = .ok ⟨b⟩
    rw [cb58_roundtrip sha hsha b hbb]
    exact shortId_fromSlice_exact hb
  · exact node_fromText_withPfx sha hsha b hb hbb

theorem C4_text_roundtrip_witness :
    Id.fromText (fun _ => List.replicate 32 0)
        (Id.toText (fun _ => List.replicate 32 0) ⟨List.replicate 32 0⟩) =
      .ok ⟨List.replicate 32 0⟩ ∧
    ShortId.fromText (fun _ => List.replicate 32 0)
        (ShortId.toText (fun _ => List.replicate 32 0) ⟨List.replicate 20 0⟩) =
      .ok ⟨List.replicate 20 0⟩ ∧
    NodeId.fromText (fun _ => List.replicate 32 0)
        (NodeId.toText (fun _ => List.replicate 32 0) ⟨List.replicate 20 0⟩) =
      .ok ⟨List.replicate 20 0⟩ := by
  have h := C4_text_roundtrip (fun _ => List.replicate 32 0) shaZero_ok
  exact ⟨(h.1 (List.replicate 32 0) (by decide) (by decide)).2,
    (h.2.1 (List.replicate 20 0) (by decide) (by decide)).2,
    (h.2.2 (List.replicate 20 0) (by decide) (by decide)).2⟩

theorem serde_must_err_iff {γ : Type} (parse : List Nat → PResult γ) (m : String) :
    ∀ v : Option (List Nat),
      (∃ e : String, (match v with
        | none => PResult.err m
        | some s => parse s) = .err e) ↔
        v = none ∨ ∃ s e, v = some s ∧ parse s = .err e
  | none => by
    constructor
    · intro _
      exact Or.inl rfl
    · intro _
      exact ⟨m, rfl⟩
  | some s => by
    constructor
    · rintro ⟨e, he⟩
      exact Or.inr ⟨s, e, rfl, he⟩
    · rintro (h | ⟨s', e, hs, he⟩)
      · cases h
      · injection hs with h'
        subst h'
        exact ⟨e, he⟩

/-- C9: the structured-document binding supports both modes for each
identifier type — the optional deserializer maps an absent/null field to
no value without error (and a parsable present field to its value), while
the required deserializer errors exactly when the field is absent/null or
its text fails to parse, and otherwise yields the parsed identifier. -/
theorem C9_serde_binding (sha : List Nat → List Nat) :
    (deserializeId sha none = .ok none ∧
     (∀ s i, Id.fromText sha s = .ok i →
        deserializeId sha (some s) = .ok (some i)) ∧
     (∀ v, (∃ e, mustDeserializeId sha v = .err e) ↔
        v = none ∨ ∃ s e, v = some s ∧ Id.fromText sha s = .err e) ∧
     (∀ s i, Id.fromText sha s = .ok i →
        mustDeserializeId sha (some s) = .ok i)) ∧
    (deserializeShortId sha none = .ok none ∧
     (∀ s i, ShortId.fromText sha s = .ok i →
        deserializeShortId sha (some s) = .ok (some i)) ∧
     (∀ v, (∃ e, mustDeserializeShortId sha v = .err e) ↔
        v = none ∨ ∃ s e, v = some s ∧ ShortId.fromText sha s = .err e) ∧
     (∀ s i, ShortId.fromText sha s = .ok i →
        mustDeserializeShortId sha (some s) = .ok i)) ∧
    (deserializeNodeId sha none = .ok none ∧
     (∀ s i, NodeId.fromText sha s = .ok i →
        deserializeNodeId sha (some s) = .ok (some i)) ∧
     (∀ v, (∃ e, mustDeserializeNodeId sha v = .err e) ↔
        v = none ∨ ∃ s e, v = some s ∧ NodeId.fromText sha s = .err e) ∧
     (∀ s i, NodeId.fromText sha s = .ok i →
        mustDeserializeNodeId sha (some s) = .ok i)) := by
  refine ⟨⟨rfl, fun s i h => ?_, fun v => ?_, fun s i h => ?_⟩,
    ⟨rfl, fun s i h => ?_, fun v => ?_, fun s i h => ?_⟩,
    ⟨rfl, fun s i h => ?_, fun v => ?_, fun s i h => ?_⟩⟩
  · show (match Id.fromText sha s with
      | .ok i => (.ok (some i) : PResult (Option Id))
      | .err e => .err e
      | .fatal => .fatal) = .ok (some i)
    rw [h]
  · exact serde_must_err_iff (Id.fromText sha) "empty Id from deserialization" v
  · show Id.fromText sha s = .ok i
    exact h
  · show (match ShortId.fromText sha s with
      | .ok i => (.ok (some i) : PResult (Option ShortId))
      | .err e => .err e
      | .fatal => .fatal) = .ok (some i)
    rw [h]
  · exact serde_must_err_iff (ShortId.fromText sha)
      "empty ShortId from deserialization" v
  · show ShortId.fromText sha s = .ok i
    exact h
  · show (match NodeId.fromText sha s with
      | .ok i => (.ok (some i) : PResult (Option NodeId))
      | .err e => .err e
      | .fatal => .fatal) = .ok (some i)
    rw [h]
  · exact serde_must_err_iff (NodeId.fromText sha)
      "empty NodeId from deserialization" v
  · show NodeId.fromText sha s = .ok i
    exact h

theorem C9_serde_binding_witness :
    deserializeId (fun _ => List.replicate 32 0) none = .ok none ∧
    deserializeId (fun _ => List.replicate 32 0) (some (List.replicate 36 49)) =
      .ok (some ⟨List.replicate 32 0⟩) ∧
    mustDeserializeId (fun _ => List.replicate 32 0) (some (List.replicate 36 49)) =
      .ok ⟨List.replicate 32 0⟩ ∧
    (∃ e, mustDeserializeNodeId (fun _ => List.replicate 32 0) none = .err e) := by
  have h := C9_serde_binding (fun _ => List.replicate 32 0)
  refine ⟨h.1.1, ?_, ?_, ?_⟩
  · exact h.1.2.1 (List.replicate 36 49) ⟨List.replicate 32 0⟩ (by decide)
  · exact h.1.2.2.2 (List.replicate 36 49) ⟨List.replicate 32 0⟩ (by decide)
  · exact (h.2.2.2.2.1 none).mpr (Or.inl rfl)

end AvaIds
